import Mathlib

/-!
gogsweb: documentation synchronisation and caching (`models/models.go`)

A shallow embedding of the documentation engine of `models/models.go`:
the change detector (`checkFileUpdates`, `checkSHA`), the file materializer,
the parser (`getFile`), the code-block renderer (`CustomRender.BlockCode`)
and the cache rebuild (`initDocMap`).

A Go string or byte slice is a list of bytes.  The functions of the Go
standard library that the program calls (`strings.Index`, `strings.Split`,
`bytes.Replace`, ...) are modelled after their Go implementation, on bytes.
-/

namespace models

/-! ## Go strings and the standard-library functions the program calls -/

/-- A Go `string` / `[]byte`: its sequence of bytes. -/
abbrev GoString := List Nat

/-- The bytes of an ASCII string literal of the source. -/
def bytes (s : String) : GoString := s.toList.map Char.toNat

/-- The byte of an ASCII character. -/
def byte (c : Char) : Nat := c.toNat

namespace strings

/-- Go `strings.HasPrefix`. -/
def HasPrefix (s pre : GoString) : Bool := pre.isPrefixOf s

/-- Go `strings.HasSuffix`. -/
def HasSuffix (s suf : GoString) : Bool := suf.isSuffixOf s

/-- Scan of `strings.Index`: the offset of the first occurrence of `sep` in
the rest of the string, `k` bytes having been passed; `-1` when there is none. -/
def indexFrom (sep : GoString) : GoString → Nat → Int
  | [], k => if sep.isPrefixOf [] then (k : Int) else -1
  | c :: rest, k => if sep.isPrefixOf (c :: rest) then (k : Int) else indexFrom sep rest (k + 1)

/-- Go `strings.Index`: byte offset of the first instance of `sep` in `s`, or `-1`. -/
def Index (s sep : GoString) : Int := indexFrom sep s 0

/-- Go `strings.Contains`: `Index(s, substr) >= 0`. -/
def Contains (s substr : GoString) : Bool := decide (Index s substr ≥ 0)

/-- Go `strings.TrimSuffix`: `s` without the trailing `suffix`, when it has it. -/
def TrimSuffix (s suffix : GoString) : GoString :=
  if HasSuffix s suffix then s.take (s.length - suffix.length) else s

/-- Lower case of one byte of ASCII text. -/
def lowerByte (b : Nat) : Nat := if 65 ≤ b ∧ b ≤ 90 then b + 32 else b

/-- Go `strings.ToLower`, on the ASCII letters.  Go also maps letters outside
ASCII; none of them becomes one of the letters of `readme`, the only use the
program makes of the result (a prefix test against that word). -/
def ToLower (s : GoString) : GoString := s.map lowerByte

/-- The loop of Go `strings.Count` for a non-empty pattern: count an instance,
continue behind it.  `fuel` bounds the number of iterations. -/
def countLoop (sep : GoString) : Nat → GoString → Nat → Nat
  | 0, _, n => n
  | fuel + 1, s, n =>
    let i := Index s sep
    if i = -1 then n else countLoop sep fuel (s.drop (i.toNat + sep.length)) (n + 1)

/-- Go `strings.Count` / `bytes.Count` for a one-byte pattern: the number of
non-overlapping instances.  Every iteration consumes a byte, so `len(s) + 1`
iterations are enough. -/
def Count (s : GoString) (sep : Nat) : Nat := countLoop [sep] (s.length + 1) s 0

/-- The loop of Go `strings.Split` (`genSplit`): `n` pieces are cut at the
first instances of `sep`, the rest is the last piece. -/
def splitLoop (sep : GoString) : Nat → GoString → List GoString
  | 0, s => [s]
  | n + 1, s =>
    let m := Index s sep
    if m < 0 then [s] else s.take m.toNat :: splitLoop sep n (s.drop (m.toNat + sep.length))

/-- Go `strings.Split(s, sep)` for a one-byte separator (the program splits
on `"/"` only): `Count(s, sep) + 1` pieces. -/
def Split (s : GoString) (sep : Nat) : List GoString := splitLoop [sep] (Count s sep) s

/-- The loop of Go `bytes.Replace` / `strings.Replace`: `n` times, copy up to
the next instance of `old`, then `new`, and continue behind the instance; at
the end copy the rest. -/
def replaceLoop (old new : GoString) : Nat → GoString → GoString
  | 0, s => s
  | n + 1, s =>
    let j := (Index s old).toNat
    s.take j ++ new ++ replaceLoop old new n (s.drop (j + old.length))

/-- Go `strings.Replace(s, old, new, -1)` / `bytes.Replace` for a one-byte
`old` (the program replaces `"#"` and `"\t"` only): every instance replaced. -/
def Replace (s : GoString) (old : Nat) (new : GoString) : GoString :=
  let m := Count s old
  if m = 0 then s else replaceLoop [old] new m s

/-- The ASCII white space of Go `unicode.IsSpace`: `\t \n \v \f \r` and space. -/
def asciiSpace (b : Nat) : Bool := (9 ≤ b && b ≤ 13) || b = 32

/-- Third byte of the UTF-8 encodings `E2 80 xx` that are white space:
U+2000..U+200A, U+2028, U+2029, U+202F. -/
def spaceE280 (b : Nat) : Bool := (128 ≤ b && b ≤ 138) || b = 168 || b = 169 || b = 175

/-- Go `strings.TrimLeftFunc(s, unicode.IsSpace)`: drop leading white space,
rune by rune.  White space outside ASCII: U+0085, U+00A0 (`C2 85`, `C2 A0`),
U+1680 (`E1 9A 80`), `E2 80 xx` as in `spaceE280`, U+205F (`E2 81 9F`) and
U+3000 (`E3 80 80`). -/
def trimLeft : GoString → GoString
  | [] => []
  | [a] => if asciiSpace a then [] else [a]
  | [a, b] =>
    if asciiSpace a then trimLeft [b]
    else if a = 194 ∧ (b = 133 ∨ b = 160) then []
    else [a, b]
  | a :: b :: c :: rest =>
    if asciiSpace a then trimLeft (b :: c :: rest)
    else if a = 194 ∧ (b = 133 ∨ b = 160) then trimLeft (c :: rest)
    else if (a = 225 ∧ b = 154 ∧ c = 128) ∨ (a = 226 ∧ b = 128 ∧ spaceE280 c = true)
        ∨ (a = 226 ∧ b = 129 ∧ c = 159) ∨ (a = 227 ∧ b = 128 ∧ c = 128) then trimLeft rest
    else a :: b :: c :: rest

/-- Go `strings.TrimRightFunc(s, unicode.IsSpace)` on the reversed string:
drop trailing white space, rune by rune (the encodings read backwards). -/
def trimRightRev : GoString → GoString
  | [] => []
  | [a] => if asciiSpace a then [] else [a]
  | [a, b] =>
    if asciiSpace a then trimRightRev [b]
    else if b = 194 ∧ (a = 133 ∨ a = 160) then []
    else [a, b]
  | a :: b :: c :: rest =>
    if asciiSpace a then trimRightRev (b :: c :: rest)
    else if b = 194 ∧ (a = 133 ∨ a = 160) then trimRightRev (c :: rest)
    else if (c = 225 ∧ b = 154 ∧ a = 128) ∨ (c = 226 ∧ b = 128 ∧ spaceE280 a = true)
        ∨ (c = 226 ∧ b = 129 ∧ a = 159) ∨ (c = 227 ∧ b = 128 ∧ a = 128) then trimRightRev rest
    else a :: b :: c :: rest

/-- Go `strings.TrimSpace`: leading and trailing white space removed. -/
def TrimSpace (s : GoString) : GoString := (trimRightRev (trimLeft s).reverse).reverse

end strings

open strings

/-! ## Data model (`models.go`, lines 41-62, 288-292) -/

/-- Go `oldDocNode`: one entry of a tree manifest. -/
structure oldDocNode where
  Sha : GoString
  Path : GoString
  /-- Go field `Type`, a reserved word in Lean. -/
  Type_ : GoString
  deriving DecidableEq, Repr

/-- Go `docTree`: a documentation file structure tree (a manifest). -/
structure docTree where
  Tree : List oldDocNode
  deriving DecidableEq, Repr

/-- Go `docFile`: a rendered document. -/
structure docFile where
  Title : GoString
  Data : GoString
  deriving DecidableEq, Repr

/-- Go `rawFile`: a file to fetch, with its name, its raw URL and its data. -/
structure rawFile where
  name : GoString
  rawURL : GoString
  data : GoString
  deriving DecidableEq, Repr

/-! ## The parser: `loadFile`, `getFile` (lines 175-190, 235-264) -/

/-- Go `loadFile` over a file system `fs` (path to content, `none` when the
file cannot be opened or inspected): the file data, or an error. -/
def loadFile (fs : GoString → Option GoString) (filePath : GoString) : Option GoString :=
  fs filePath

/-- Lines 249-260 of `getFile`, "Parse and render": the title and the body
handed to `markdown`, from the file content `p`. -/
def parseDoc (p : GoString) : docFile :=
  let s := p
  let i := Index s (bytes "\n")
  if i > -1 then
    -- Has title.
    { Title := TrimSpace (Replace (s.take (i + 1).toNat) (byte '#') []),
      Data := if (s.length : Int) ≥ i + 2 then TrimSpace (s.drop (i + 2).toNat) else [] }
  else
    { Title := [], Data := p }

/-- Outcome of `getFile`: the document (`none` for Go `nil`) and the paths
handed to `loadFile`, in order. -/
structure GetFileResult where
  doc : Option docFile
  loads : List GoString
  deriving DecidableEq, Repr

/-- Go `getFile`.  `markdown` is the rendering step (blackfriday). -/
def getFile (fs : GoString → Option GoString) (markdown : GoString → GoString)
    (filePath : GoString) : GetFileResult :=
  if Contains filePath (bytes "images") || decide ((Split filePath (byte '/')).length ≤ 3) then
    { doc := none, loads := [] }
  else
    match loadFile fs (filePath ++ bytes ".md") with
    | none => { doc := none, loads := [filePath ++ bytes ".md"] }
    | some p =>
      let df := parseDoc p
      { doc := some { df with Data := markdown df.Data }, loads := [filePath ++ bytes ".md"] }

/-! ## The renderer: `CustomRender.BlockCode` (lines 192-205) -/

/-- Go `tab`, the one byte of `[]byte("\t")`. -/
def tab : Nat := byte '\t'

/-- Go `spaces`. -/
def spaces : GoString := bytes "    "

/-- Go `CustomRender.BlockCode`.  `Renderer` is the embedded renderer's
`BlockCode`: the bytes it writes to the fresh buffer `tmp` for a code block
`text` of language `lang`.  The result is the buffer `out` afterwards. -/
def CustomRender.BlockCode (Renderer : GoString → GoString → GoString)
    (out text lang : GoString) : GoString :=
  let tmp := Renderer text lang
  out ++ Replace tmp tab spaces

/-! ## The change detector: `checkSHA`, `checkFileUpdates` (lines 310-443) -/

/-- The loop of `checkSHA` over the loaded tree: the first entry with the
name decides. -/
def checkSHA.loop (name sha : GoString) : List oldDocNode → Bool
  | [] => true -- Not found.
  | v :: rest =>
    if v.Path = name then
      -- Found.
      if v.Sha ≠ sha then true /- Need to update. -/ else false
    else checkSHA.loop name sha rest

/-- Go `checkSHA`: true if the documentation file needs an update.
`docTrees` is the package variable: the tree `initDocMap` loaded for every
application (it assigns `docTrees[name]` for each of them before any check). -/
def checkSHA (docTrees : GoString → docTree) (app name sha pre : GoString) : Bool :=
  let tree : docTree := if HasPrefix pre (bytes "docs/") then docTrees app else { Tree := [] }
  checkSHA.loop name sha tree.Tree

/-- An application of the configuration (`setting.Apps`). -/
structure App where
  Name : GoString
  RepoName : GoString
  deriving DecidableEq, Repr

/-- The local type `tree` of `checkFileUpdates`. -/
structure tree where
  AppName : GoString
  ApiUrl : GoString
  RawUrl : GoString
  TreeName : GoString
  Prefix : GoString
  deriving DecidableEq, Repr

/-- Lines 319-325: the `tree` of an application; `cred` is `setting.GithubCred`. -/
def mkTree (app : App) (cred : GoString) : tree :=
  { AppName := app.Name,
    ApiUrl := bytes "https://api.github.com/repos/" ++ app.RepoName
      ++ bytes "/git/trees/master?recursive=1&" ++ cred,
    RawUrl := bytes "https://raw.github.com/" ++ app.RepoName ++ bytes "/master/",
    TreeName := bytes "conf/docTree_" ++ app.Name ++ bytes ".json",
    Prefix := bytes "docs/" ++ app.Name ++ bytes "/" }

/-- Lines 346-352, the condition of the `continue`: skip non-md files and
"README.md". -/
def skipNode (node : oldDocNode) : Bool :=
  (node.Type_ != bytes "blob"
    || (!HasSuffix node.Path (bytes ".md") && !Contains node.Path (bytes "images")
      && !HasSuffix node.Path (bytes ".json")))
    || HasPrefix (ToLower node.Path) (bytes "readme")

/-- The two slices the compare loop builds: the files to fetch and the tree
to save. -/
structure Scan where
  files : List rawFile
  saveTree : List oldDocNode
  deriving DecidableEq, Repr

/-- Lines 345-370, the "Compare SHA" loop of `checkFileUpdates` over the rest
of `tmpTree.Tree`, `acc` holding `files` and `saveTree.Tree` so far. -/
def compareLoop (docTrees : GoString → docTree) (t : tree) : List oldDocNode → Scan → Scan
  | [], acc => acc
  | node :: rest, acc =>
    if skipNode node then compareLoop docTrees t rest acc
    else
      let name := TrimSuffix node.Path (bytes ".md")
      let files :=
        if checkSHA docTrees t.AppName name node.Sha t.Prefix then
          acc.files ++ [{ name := name, rawURL := t.RawUrl ++ node.Path, data := [] }]
        else acc.files
      -- (the reset of `node.Path` "for save purpose" changes `tmpTree` only, which is not used again)
      compareLoop docTrees t rest
        { files := files,
          saveTree := acc.saveTree ++ [{ Path := name, Sha := node.Sha, Type_ := [] }] }

/-- Lines 338-370: the compare loop from empty `files` and `saveTree`. -/
def compareSHA (docTrees : GoString → docTree) (t : tree) (tmpTree : List oldDocNode) : Scan :=
  compareLoop docTrees t tmpTree { files := [], saveTree := [] }

/-- Lines 381-386: the path `os.Create` is given for a fetched file. -/
def targetPath (pre name : GoString) : GoString :=
  let suf := if Contains name (bytes "images") || HasSuffix name (bytes ".json")
    then [] else bytes ".md"
  pre ++ name ++ suf

/-- What `os.Create` and `Write` do for one local path. -/
inductive WriteOutcome where
  /-- `os.Create` fails: nothing is written. -/
  | createFails
  /-- `Write` fails after `n` bytes. -/
  | writeFails (n : Nat)
  /-- The file holds the data. -/
  | ok
  deriving DecidableEq, Repr

/-- Lines 378-398, the "Update data" loop: the local files written, as
(path, content) in order.  A failure skips the file and the loop continues.
(`os.MkdirAll`, whose error the code ignores, shows only in the outcome of
`os.Create`.) -/
def updateLoop (io : GoString → WriteOutcome) (pre : GoString) :
    List rawFile → List (GoString × GoString)
  | [] => []
  | f :: rest =>
    let p := targetPath pre f.name
    match io p with
    | .createFails => updateLoop io pre rest
    | .writeFails n => (p, f.data.take n) :: updateLoop io pre rest
    | .ok => (p, f.data) :: updateLoop io pre rest

/-- `com.FetchFiles`: the data of every file from its raw URL, or an error
when a download fails. -/
def FetchFiles (fetch : GoString → Option GoString) : List rawFile → Option (List rawFile)
  | [] => some []
  | f :: rest =>
    match fetch f.rawURL, FetchFiles fetch rest with
    | some d, some fs => some ({ f with data := d } :: fs)
    | _, _ => none

/-- What happens to the manifest file `conf/docTree_<app>.json` in a cycle. -/
inductive Persisted where
  /-- The cycle returned before `os.Create(tree.TreeName)` succeeded. -/
  | untouched
  /-- The file was created and the encoding failed. -/
  | broken
  /-- The file holds the tree. -/
  | saved (tree : List oldDocNode)
  deriving DecidableEq, Repr

/-- The outside world of one pass of the loop over `trees`. -/
structure World where
  /-- `com.HttpGetJSON` on the tree URL: the remote tree, or an error. -/
  httpGetJSON : GoString → Option (List oldDocNode)
  /-- Download of a raw URL. -/
  fetch : GoString → Option GoString
  /-- Creation and writing of a local file. -/
  io : GoString → WriteOutcome
  /-- Does `os.Create(tree.TreeName)` succeed. -/
  createTree : Bool
  /-- Does `Encode(&saveTree)` succeed. -/
  encodeTree : Bool

/-- Result of one pass of the loop over `trees`. -/
structure SyncResult where
  /-- The files marked for fetching ("Need to update"). -/
  files : List rawFile
  /-- The local files written. -/
  written : List (GoString × GoString)
  /-- The manifest file. -/
  persisted : Persisted
  deriving DecidableEq, Repr

/-- Lines 328-414: the body of the loop of `checkFileUpdates` for one `tree`. -/
def syncTree (docTrees : GoString → docTree) (t : tree) (w : World) : SyncResult :=
  match w.httpGetJSON t.ApiUrl with
  | none => { files := [], written := [], persisted := .untouched }
  | some tmpTree =>
    let scan := compareSHA docTrees t tmpTree
    -- Fetch files.
    match FetchFiles w.fetch scan.files with
    | none => { files := scan.files, written := [], persisted := .untouched }
    | some files =>
      -- Update data.
      let written := updateLoop w.io t.Prefix files
      -- Save documentation information.
      if !w.createTree then { files := scan.files, written := written, persisted := .untouched }
      else if !w.encodeTree then { files := scan.files, written := written, persisted := .broken }
      else { files := scan.files, written := written, persisted := .saved scan.saveTree }

/-- The package variable `docTrees` after `initDocMap` has decoded the saved
manifest of `app`: `docTrees[app].Tree` is the saved tree. -/
def reload (docTrees : GoString → docTree) (app : GoString) (saved : List oldDocNode) :
    GoString → docTree :=
  fun a => if a = app then { Tree := saved } else docTrees a

/-! ## The cache rebuild: `initDocMap` (lines 131-173) -/

/-- What `initDocMap` does to the lock, the disk and the cache, in program order. -/
inductive Event where
  /-- `docLock.Lock()`. -/
  | lock
  /-- The deferred `docLock.Unlock()`. -/
  | unlock
  /-- `os.MkdirAll` of a directory. -/
  | mkdirAll (dir : GoString)
  /-- A call of `getFile` on a path. -/
  | getFile (filePath : GoString)
  /-- `docMaps[name] = docMap`. -/
  | assign (name : GoString)
  deriving DecidableEq, Repr

/-- The manifest file `conf/docTree_<name>.json` as `initDocMap` finds it. -/
inductive ConfFile where
  /-- `com.IsFile` is false. -/
  | missing
  /-- `os.Open` fails. -/
  | openFails
  /-- `Decode` fails, `part` having been decoded into `docTrees[name]`. -/
  | decodeFails (part : List oldDocNode)
  /-- `Decode` gives the tree. -/
  | decoded (tree : List oldDocNode)
  deriving DecidableEq, Repr

/-- The map `docMap` being built (a Go map as a list of assignments, the
last one first) and the events so far. -/
structure InitState where
  docMap : List (GoString × Option docFile)
  trace : List Event
  deriving DecidableEq, Repr

/-- Lines 160-169, the loop over `docTrees[name].Tree` for the language `l`.
`Join` is Go `path.Join`. -/
def initDocMap.nodes (Join : List GoString → GoString) (fs : GoString → Option GoString)
    (markdown : GoString → GoString) (name : GoString) (isConfExist : Bool) (l : GoString) :
    List oldDocNode → InitState → InitState
  | [], st => st
  | v :: rest, st =>
    let fullName := if isConfExist then v.Path else l ++ bytes "/" ++ v.Path
    let filePath := Join [bytes "docs", name, fullName]
    initDocMap.nodes Join fs markdown name isConfExist l rest
      { docMap := (fullName, (getFile fs markdown filePath).doc) :: st.docMap,
        trace := st.trace ++ [Event.getFile filePath] }

/-- Lines 158-170, the loop over `setting.Langs`. -/
def initDocMap.langs (Join : List GoString → GoString) (fs : GoString → Option GoString)
    (markdown : GoString → GoString) (name : GoString) (isConfExist : Bool)
    (Tree : List oldDocNode) : List GoString → InitState → InitState
  | [], st => st
  | l :: rest, st =>
    initDocMap.langs Join fs markdown name isConfExist Tree rest
      (initDocMap.nodes Join fs markdown name isConfExist l Tree
        { st with trace := st.trace ++ [Event.mkdirAll (Join [bytes "docs", name, l])] })

/-- Result of `initDocMap`: `docTrees[name]`, the value assigned to
`docMaps[name]` (`none` when the function returned before the assignment) and
the events. -/
structure InitResult where
  docTree : docTree
  docMap : Option (List (GoString × Option docFile))
  trace : List Event
  deriving DecidableEq, Repr

/-- Lines 153-172 of `initDocMap`: lock, build `docMap`, assign it; the
deferred unlock runs at the return. -/
def initDocMap.build (Join : List GoString → GoString) (fs : GoString → Option GoString)
    (markdown : GoString → GoString) (Langs : List GoString) (name : GoString)
    (isConfExist : Bool) (Tree : List oldDocNode) : InitResult :=
  let st0 : InitState := { docMap := [], trace := [Event.lock] }
  let st := initDocMap.langs Join fs markdown name isConfExist Tree Langs st0
  { docTree := { Tree := Tree },
    docMap := some st.docMap,
    trace := st.trace ++ [Event.assign name, Event.unlock] }

/-- Go `initDocMap`.  `Langs` is `setting.Langs`, `conf` the manifest file. -/
def initDocMap (Join : List GoString → GoString) (fs : GoString → Option GoString)
    (markdown : GoString → GoString) (Langs : List GoString) (name : GoString)
    (conf : ConfFile) : InitResult :=
  match conf with
  | .openFails => { docTree := { Tree := [] }, docMap := none, trace := [] }
  | .decodeFails part => { docTree := { Tree := part }, docMap := none, trace := [] }
  | .decoded Tree => initDocMap.build Join fs markdown Langs name true Tree
  | .missing =>
    -- Generate 'docTree'.
    initDocMap.build Join fs markdown Langs name false [{ Path := [], Sha := [], Type_ := [] }]

/-- The `getFile` calls of a trace made while the exclusive lock is held
(`held` at the start). -/
def parsesLocked : Bool → List Event → List GoString
  | _, [] => []
  | _, Event.lock :: rest => parsesLocked true rest
  | _, Event.unlock :: rest => parsesLocked false rest
  | held, Event.getFile p :: rest =>
    if held then p :: parsesLocked held rest else parsesLocked held rest
  | held, _ :: rest => parsesLocked held rest

/-- The `getFile` calls of a trace made while the exclusive lock is not held. -/
def parsesUnlocked : Bool → List Event → List GoString
  | _, [] => []
  | _, Event.lock :: rest => parsesUnlocked true rest
  | _, Event.unlock :: rest => parsesUnlocked false rest
  | held, Event.getFile p :: rest =>
    if held then parsesUnlocked held rest else p :: parsesUnlocked held rest
  | held, _ :: rest => parsesUnlocked held rest

/-- One path element in Go `path.Clean`, `stack` holding the elements kept so
far, the last one first: an empty element and `.` are dropped; `..` removes
the element before it, is kept at the start of a path that is not rooted and
dropped at the start of a rooted one. -/
def path.cleanStep (rooted : Bool) (stack : List GoString) (e : GoString) : List GoString :=
  if e = [] ∨ e = bytes "." then stack
  else if e = bytes ".." then
    match stack with
    | top :: rest => if top = bytes ".." then e :: stack else rest
    | [] => if rooted then [] else [e]
  else e :: stack

/-- Go `path.Clean`: the shortest path name equivalent to the path. -/
def path.Clean (p : GoString) : GoString :=
  if p = [] then bytes "."
  else
    let rooted := decide (p.head? = some (byte '/'))
    let stack := (Split p (byte '/')).foldl (path.cleanStep rooted) []
    let body := (bytes "/").intercalate stack.reverse
    if rooted then byte '/' :: body
    else if body = [] then bytes "." else body

/-- Go `path.Join`: the elements joined with slashes, empty elements before
the first non-empty one ignored, and the result cleaned; the empty string when
all elements are empty. -/
def path.Join (elem : List GoString) : GoString :=
  if elem.all (fun e => decide (e = [])) then []
  else
    path.Clean (elem.foldl
      (fun buf e =>
        if buf ≠ [] ∨ e ≠ [] then (if buf ≠ [] then buf ++ bytes "/" else buf) ++ e else buf)
      [])

/-- The local disk after the files of `written` have been written, in order. -/
def applyWrites (disk : GoString → Option GoString) (written : List (GoString × GoString)) :
    GoString → Option GoString :=
  written.foldl (fun d w => fun q => if q = w.1 then some w.2 else d q) disk

/-- The events of `initDocMap` between the lock and the assignment: for every
language the directory, then a `getFile` for every entry of the tree. -/
def rebuildEvents (Join : List GoString → GoString) (name : GoString) (isConfExist : Bool)
    (Tree : List oldDocNode) (Langs : List GoString) : List Event :=
  Langs.flatMap (fun l => Event.mkdirAll (Join [bytes "docs", name, l]) ::
    Tree.map (fun v => Event.getFile
      (Join [bytes "docs", name, if isConfExist then v.Path else l ++ bytes "/" ++ v.Path])))

/-! ## Concrete inputs -/

/-- An application: the documentation of `gogs`. -/
def exApp : App := { Name := bytes "gogs", RepoName := bytes "gogits/docs" }

/-- Its `tree` in `checkFileUpdates`, without credentials. -/
def exTree : tree := mkTree exApp []

/-- A `docTrees` in which every application has an empty tree. -/
def noTrees : GoString → docTree := fun _ => { Tree := [] }

/-- A remote tree with one documentation file. -/
def exRemote : List oldDocNode :=
  [{ Sha := bytes "h1", Path := bytes "en-US/intro.md", Type_ := bytes "blob" }]

/-- A world in which the remote answers with `exRemote`, every download
succeeds and the manifest is saved; `io` decides the local writes. -/
def exWorld (io : GoString → WriteOutcome) : World :=
  { httpGetJSON := fun _ => some exRemote,
    fetch := fun _ => some (bytes "# Intro\n\nText"),
    io := io,
    createTree := true,
    encodeTree := true }

/-- A file system with one document, `docs/gogs/en-US/intro.md`. -/
def exFs : GoString → Option GoString :=
  fun p => if p = bytes "docs/gogs/en-US/intro.md" then some (bytes "# Hello World\nBody text")
    else none

/-! ## Lemmas on the compare loop -/

theorem compareLoop_eq (docTrees : GoString → docTree) (t : tree) (F : List oldDocNode)
    (acc : Scan) :
    compareLoop docTrees t F acc =
      { files := acc.files ++
          (F.filter (fun n => !skipNode n &&
              checkSHA docTrees t.AppName (TrimSuffix n.Path (bytes ".md")) n.Sha t.Prefix)).map
            (fun n => { name := TrimSuffix n.Path (bytes ".md"),
                        rawURL := t.RawUrl ++ n.Path, data := [] }),
        saveTree := acc.saveTree ++
          (F.filter (fun n => !skipNode n)).map
            (fun n => { Sha := n.Sha, Path := TrimSuffix n.Path (bytes ".md"), Type_ := [] }) } := by
  induction F generalizing acc with
  | nil => simp [compareLoop]
  | cons node rest ih =>
    by_cases hs : skipNode node = true
    · simp [compareLoop, hs, ih]
    · have hs' : skipNode node = false := by simpa using hs
      by_cases hc : checkSHA docTrees t.AppName (TrimSuffix node.Path (bytes ".md")) node.Sha
          t.Prefix = true
      · simp [compareLoop, hs', hc, ih]
      · have hc' : checkSHA docTrees t.AppName (TrimSuffix node.Path (bytes ".md")) node.Sha
            t.Prefix = false := by simpa using hc
        simp [compareLoop, hs', hc', ih]

theorem mkTree_hasDocs (app : App) (cred : GoString) :
    HasPrefix (mkTree app cred).Prefix (bytes "docs/") = true := by
  simp [mkTree, HasPrefix, bytes]

/-! ## Theorems -/

/-- C4: `getFile` returns nil, and reads no file, for every path that
contains "images" and for every path with 3 or fewer segments between
slashes, whatever the file system holds. -/
theorem C4_getFile_exclusion (fs : GoString → Option GoString)
    (markdown : GoString → GoString) (filePath : GoString)
    (h : Contains filePath (bytes "images") = true ∨ (Split filePath (byte '/')).length ≤ 3) :
    getFile fs markdown filePath = { doc := none, loads := [] } := by
  unfold getFile
  rcases h with h | h
  · simp [h]
  · simp [h]

/-- Witness of C4: `docs/app/en-US/images/foo` contains "images", and
`docs/app/intro` has three segments; a file exists at every path. -/
theorem C4_getFile_exclusion_witness :
    getFile (fun _ => some (bytes "# T\nbody")) id (bytes "docs/app/en-US/images/foo")
        = { doc := none, loads := [] }
      ∧ getFile (fun _ => some (bytes "# T\nbody")) id (bytes "docs/app/intro")
        = { doc := none, loads := [] } :=
  ⟨C4_getFile_exclusion _ _ _ (Or.inl (by decide)),
   C4_getFile_exclusion _ _ _ (Or.inr (by decide))⟩

/-- C2: on the content "# Hello World\nBody text" `getFile` gives the title
"Hello World" and hands "ody text" to the markdown step, not "Body text":
the body starts two bytes behind the newline's offset, `s[i+2:]`, so the byte
that follows the newline is dropped. -/
theorem C2_body_drops_byte_after_newline :
    parseDoc (bytes "# Hello World\nBody text")
        = { Title := bytes "Hello World", Data := bytes "ody text" }
      ∧ (∀ markdown : GoString → GoString,
          getFile exFs markdown (bytes "docs/gogs/en-US/intro")
            = { doc := some { Title := bytes "Hello World", Data := markdown (bytes "ody text") },
                loads := [bytes "docs/gogs/en-US/intro.md"] })
      ∧ bytes "ody text" ≠ TrimSpace (bytes "Body text") := by
  refine ⟨by decide, ?_, by decide⟩
  intro markdown
  have h1 : (Contains (bytes "docs/gogs/en-US/intro") (bytes "images")
      || decide ((Split (bytes "docs/gogs/en-US/intro") (byte '/')).length ≤ 3)) = false := by decide
  have h2 : loadFile exFs (bytes "docs/gogs/en-US/intro" ++ bytes ".md")
      = some (bytes "# Hello World\nBody text") := by decide
  have h3 : parseDoc (bytes "# Hello World\nBody text")
      = { Title := bytes "Hello World", Data := bytes "ody text" } := by decide
  unfold getFile
  rw [h1]
  have h4 : bytes "docs/gogs/en-US/intro" ++ bytes ".md" = bytes "docs/gogs/en-US/intro.md" := by
    decide
  rw [h4] at h2
  simp only [Bool.false_eq_true, if_false, h2, h3, h4]


theorem checkSHA_loop_iff (name sha : GoString) (prev : List oldDocNode) :
    checkSHA.loop name sha prev = true ↔
      (∀ v ∈ prev, v.Path ≠ name) ∨
        ∃ v, prev.find? (fun v => decide (v.Path = name)) = some v ∧ v.Sha ≠ sha := by
  induction prev with
  | nil => simp [checkSHA.loop]
  | cons v rest ih =>
    by_cases hp : v.Path = name
    · by_cases hs : v.Sha = sha
      · simp [checkSHA.loop, hp, hs]
      · simp [checkSHA.loop, hp, hs]
    · simp [checkSHA.loop, hp, ih]

theorem checkSHA_loop_false_iff (name sha : GoString) (prev : List oldDocNode) :
    checkSHA.loop name sha prev = false ↔
      ∃ v, prev.find? (fun v => decide (v.Path = name)) = some v ∧ v.Sha = sha := by
  induction prev with
  | nil => simp [checkSHA.loop]
  | cons v rest ih =>
    by_cases hp : v.Path = name
    · by_cases hs : v.Sha = sha
      · simp [checkSHA.loop, hp, hs]
      · simp [checkSHA.loop, hp, hs]
    · simp [checkSHA.loop, hp, ih]

theorem find_path_of_nodup (name : GoString) (prev : List oldDocNode)
    (hnd : (prev.map oldDocNode.Path).Nodup) (v : oldDocNode) (hv : v ∈ prev)
    (hp : v.Path = name) :
    prev.find? (fun v => decide (v.Path = name)) = some v := by
  cases hf : prev.find? (fun v => decide (v.Path = name)) with
  | none =>
    have := List.find?_eq_none.mp hf v hv
    simp [hp] at this
  | some u =>
    have hu : u ∈ prev := List.mem_of_find?_eq_some hf
    have hup : u.Path = name := by simpa using List.find?_some hf
    have : u = v := List.inj_on_of_nodup_map hnd hu hv (hup.trans hp.symm)
    rw [this]

theorem checkSHA_eq_loop (docTrees : GoString → docTree) (app : App) (cred name sha : GoString) :
    checkSHA docTrees app.Name name sha (mkTree app cred).Prefix
      = checkSHA.loop name sha (docTrees app.Name).Tree := by
  unfold checkSHA
  rw [mkTree_hasDocs]
  simp [mkTree]


/-- C1 (amended): the compare loop of `checkFileUpdates` marks ("Need to
update") exactly the selected entries whose canonical name (the path without
a trailing ".md") is absent from the previous manifest, or for which the
first entry with that name there has a different hash; an entry is not marked
exactly when the first entry with its name has the same hash.  For a previous
manifest with pairwise distinct paths this is: marked exactly when the name is
absent or present with a different hash, and not marked when it is present
with the same hash.  With the previous manifest ("a","h1"), the fetched
entries ("a","h2"), ("b","h3") give exactly "a" and "b", and the fetched entry
("a","h1") gives nothing.  The marked entries are listed once each, in the
order of the fetched manifest. -/
theorem C1_change_detection :
    (∀ (docTrees : GoString → docTree) (app : App) (cred : GoString)
        (tmpTree : List oldDocNode) (f : rawFile),
        f ∈ (compareSHA docTrees (mkTree app cred) tmpTree).files ↔
          ∃ node ∈ tmpTree, skipNode node = false ∧
            f = { name := TrimSuffix node.Path (bytes ".md"),
                  rawURL := (mkTree app cred).RawUrl ++ node.Path, data := [] } ∧
            ((∀ v ∈ (docTrees app.Name).Tree, v.Path ≠ TrimSuffix node.Path (bytes ".md")) ∨
              ∃ v, (docTrees app.Name).Tree.find?
                    (fun v => decide (v.Path = TrimSuffix node.Path (bytes ".md"))) = some v
                ∧ v.Sha ≠ node.Sha))
    ∧ (∀ (docTrees : GoString → docTree) (app : App) (cred name sha : GoString),
        ((docTrees app.Name).Tree.map oldDocNode.Path).Nodup →
          (checkSHA docTrees app.Name name sha (mkTree app cred).Prefix = true ↔
            (∀ v ∈ (docTrees app.Name).Tree, v.Path ≠ name) ∨
              ∃ v ∈ (docTrees app.Name).Tree, v.Path = name ∧ v.Sha ≠ sha)
          ∧ ((∃ v ∈ (docTrees app.Name).Tree, v.Path = name ∧ v.Sha = sha) →
              checkSHA docTrees app.Name name sha (mkTree app cred).Prefix = false))
    ∧ ((compareSHA
          (reload noTrees (bytes "gogs") [{ Sha := bytes "h1", Path := bytes "a", Type_ := [] }])
          exTree
          [{ Sha := bytes "h2", Path := bytes "a.md", Type_ := bytes "blob" },
           { Sha := bytes "h3", Path := bytes "b.md", Type_ := bytes "blob" }]).files.map
          rawFile.name = [bytes "a", bytes "b"])
    ∧ ((compareSHA
          (reload noTrees (bytes "gogs") [{ Sha := bytes "h1", Path := bytes "a", Type_ := [] }])
          exTree
          [{ Sha := bytes "h1", Path := bytes "a.md", Type_ := bytes "blob" }]).files = [])
    ∧ (∀ (docTrees : GoString → docTree) (app : App) (cred name sha : GoString),
        (checkSHA docTrees app.Name name sha (mkTree app cred).Prefix = true ↔
          (∀ v ∈ (docTrees app.Name).Tree, v.Path ≠ name) ∨
            ∃ v, (docTrees app.Name).Tree.find? (fun v => decide (v.Path = name)) = some v
              ∧ v.Sha ≠ sha)
        ∧ (checkSHA docTrees app.Name name sha (mkTree app cred).Prefix = false ↔
            ∃ v, (docTrees app.Name).Tree.find? (fun v => decide (v.Path = name)) = some v
              ∧ v.Sha = sha))
    ∧ (∀ (docTrees : GoString → docTree) (app : App) (cred : GoString)
        (tmpTree : List oldDocNode),
        (compareSHA docTrees (mkTree app cred) tmpTree).files
          = (tmpTree.filter (fun n => !skipNode n &&
                checkSHA docTrees app.Name (TrimSuffix n.Path (bytes ".md")) n.Sha
                  (mkTree app cred).Prefix)).map
              (fun n => { name := TrimSuffix n.Path (bytes ".md"),
                          rawURL := (mkTree app cred).RawUrl ++ n.Path, data := [] })) := by
  refine ⟨?_, ?_, by decide, by decide, ?_, ?_⟩
  rotate_right
  · intro docTrees app cred tmpTree
    simp only [compareSHA, compareLoop_eq, List.nil_append]
    rfl
  · intro docTrees app cred tmpTree f
    simp only [compareSHA, compareLoop_eq, List.nil_append, List.mem_map, List.mem_filter,
      Bool.and_eq_true, Bool.not_eq_true']
    have hloop : ∀ node : oldDocNode,
        checkSHA docTrees (mkTree app cred).AppName (TrimSuffix node.Path (bytes ".md")) node.Sha
          (mkTree app cred).Prefix
          = checkSHA.loop (TrimSuffix node.Path (bytes ".md")) node.Sha (docTrees app.Name).Tree :=
      fun node => checkSHA_eq_loop docTrees app cred _ _
    constructor
    · rintro ⟨node, ⟨hmem, hskip, hneed⟩, rfl⟩
      rw [hloop, checkSHA_loop_iff] at hneed
      exact ⟨node, hmem, hskip, rfl, hneed⟩
    · rintro ⟨node, hmem, hskip, rfl, hneed⟩
      rw [← checkSHA_loop_iff, ← hloop] at hneed
      exact ⟨node, ⟨hmem, hskip, hneed⟩, rfl⟩
  · intro docTrees app cred name sha hnd
    rw [checkSHA_eq_loop]
    constructor
    · rw [checkSHA_loop_iff]
      constructor
      · rintro (h | ⟨v, hf, hs⟩)
        · exact Or.inl h
        · exact Or.inr ⟨v, List.mem_of_find?_eq_some hf, by simpa using List.find?_some hf, hs⟩
      · rintro (h | ⟨v, hv, hp, hs⟩)
        · exact Or.inl h
        · exact Or.inr ⟨v, find_path_of_nodup name _ hnd v hv hp, hs⟩
    · rintro ⟨v, hv, hp, hs⟩
      have hf := find_path_of_nodup name _ hnd v hv hp
      cases hl : checkSHA.loop name sha (docTrees app.Name).Tree with
      | false => rfl
      | true =>
        rcases (checkSHA_loop_iff name sha _).mp hl with h | ⟨u, hu, hus⟩
        · exact absurd hp (h v hv)
        · rw [hf] at hu
          cases hu
          exact absurd hs hus
  · intro docTrees app cred name sha
    rw [checkSHA_eq_loop]
    exact ⟨checkSHA_loop_iff name sha _, checkSHA_loop_false_iff name sha _⟩

/-- Witness of C1 (amended) for a previous manifest with unique paths: with
("a","h1") and ("b","h2") loaded, the name "a" needs an update for the hash
"h3" and none for the hash "h1". -/
theorem C1_change_detection_witness :
    checkSHA
        (reload noTrees exApp.Name
          [{ Sha := bytes "h1", Path := bytes "a", Type_ := [] },
           { Sha := bytes "h2", Path := bytes "b", Type_ := [] }])
        exApp.Name (bytes "a") (bytes "h3") (mkTree exApp []).Prefix = true
      ∧ checkSHA
        (reload noTrees exApp.Name
          [{ Sha := bytes "h1", Path := bytes "a", Type_ := [] },
           { Sha := bytes "h2", Path := bytes "b", Type_ := [] }])
        exApp.Name (bytes "a") (bytes "h1") (mkTree exApp []).Prefix = false :=
  ⟨((C1_change_detection.2.1
        (reload noTrees exApp.Name
          [{ Sha := bytes "h1", Path := bytes "a", Type_ := [] },
           { Sha := bytes "h2", Path := bytes "b", Type_ := [] }])
        exApp [] (bytes "a") (bytes "h3") (by decide)).1).mpr
      (Or.inr ⟨{ Sha := bytes "h1", Path := bytes "a", Type_ := [] }, by decide, rfl, by decide⟩),
   (C1_change_detection.2.1
        (reload noTrees exApp.Name
          [{ Sha := bytes "h1", Path := bytes "a", Type_ := [] },
           { Sha := bytes "h2", Path := bytes "b", Type_ := [] }])
        exApp [] (bytes "a") (bytes "h1") (by decide)).2
      ⟨{ Sha := bytes "h1", Path := bytes "a", Type_ := [] }, by decide, rfl, rfl⟩⟩

/-- C1 as stated fails for a previous manifest that holds a name twice, such
as the one `C6_counterexample` shows the code to persist: with ("a","h1"),
("a","h2") loaded, the fetched entry ("a.md","h2") is marked although "a" is
present with the same hash "h2", and the fetched entry ("a.md","h1") is not
marked although "a" is present with the different hash "h2". -/
theorem C1_counterexample :
    ({ Sha := bytes "h2", Path := bytes "a", Type_ := [] } : oldDocNode) ∈
        (reload noTrees exApp.Name
          [{ Sha := bytes "h1", Path := bytes "a", Type_ := [] },
           { Sha := bytes "h2", Path := bytes "a", Type_ := [] }] exApp.Name).Tree
      ∧ (compareSHA
          (reload noTrees exApp.Name
            [{ Sha := bytes "h1", Path := bytes "a", Type_ := [] },
             { Sha := bytes "h2", Path := bytes "a", Type_ := [] }])
          exTree
          [{ Sha := bytes "h2", Path := bytes "a.md", Type_ := bytes "blob" }]).files.map
          rawFile.name = [bytes "a"]
      ∧ (compareSHA
          (reload noTrees exApp.Name
            [{ Sha := bytes "h1", Path := bytes "a", Type_ := [] },
             { Sha := bytes "h2", Path := bytes "a", Type_ := [] }])
          exTree
          [{ Sha := bytes "h1", Path := bytes "a.md", Type_ := bytes "blob" }]).files = [] := by
  decide

theorem trimSuffix_append (s suf : GoString) (h : HasSuffix s suf = true) :
    TrimSuffix s suf ++ suf = s := by
  have hs : suf <:+ s := by simpa [HasSuffix] using h
  obtain ⟨t, rfl⟩ := hs
  simp [TrimSuffix, h]

theorem trimSuffix_of_not (s suf : GoString) (h : HasSuffix s suf = false) :
    TrimSuffix s suf = s := by
  simp [TrimSuffix, h]

theorem trimSuffix_eq_cases (p q suf : GoString) (h : TrimSuffix p suf = TrimSuffix q suf) :
    p = q ∨ p = q ++ suf ∨ q = p ++ suf := by
  cases hp : HasSuffix p suf <;> cases hq : HasSuffix q suf
  · left
    rw [trimSuffix_of_not p suf hp, trimSuffix_of_not q suf hq] at h
    exact h
  · right; right
    rw [trimSuffix_of_not p suf hp] at h
    rw [h, trimSuffix_append q suf hq]
  · right; left
    rw [trimSuffix_of_not q suf hq] at h
    rw [← h, trimSuffix_append p suf hp]
  · left
    rw [← trimSuffix_append p suf hp, ← trimSuffix_append q suf hq, h]

theorem saveTree_eq (docTrees : GoString → docTree) (t : tree) (F : List oldDocNode) :
    (compareSHA docTrees t F).saveTree =
      (F.filter (fun n => !skipNode n)).map
        (fun n => { Sha := n.Sha, Path := TrimSuffix n.Path (bytes ".md"), Type_ := [] }) := by
  simp [compareSHA, compareLoop_eq]

theorem saveTree_paths_nodup (docTrees : GoString → docTree) (t : tree) (F : List oldDocNode)
    (huniq : (F.map oldDocNode.Path).Nodup)
    (hcol : ∀ a ∈ F, ∀ b ∈ F, skipNode a = false → skipNode b = false →
      b.Path ≠ a.Path ++ bytes ".md") :
    ((compareSHA docTrees t F).saveTree.map oldDocNode.Path).Nodup := by
  rw [saveTree_eq, List.map_map]
  have hF : F.Nodup := List.Nodup.of_map _ huniq
  refine List.Nodup.map_on ?_ (hF.filter _)
  intro x hx y hy hxy
  simp only [List.mem_filter, Bool.not_eq_true'] at hx hy
  simp only [Function.comp] at hxy
  rcases trimSuffix_eq_cases _ _ _ hxy with h | h | h
  · exact List.inj_on_of_nodup_map huniq hx.1 hy.1 h
  · exact absurd h (hcol y hy.1 x hx.1 hy.2 hx.2)
  · exact absurd h (hcol x hx.1 y hy.1 hx.2 hy.2)

/-- C5 (amended): an entry whose whole remote path, in lower case, starts
with "readme" is excluded by the compare loop: alone it yields no file to
fetch and no manifest entry, and removing it from the fetched tree changes
neither the files to fetch nor the manifest to persist. -/
theorem C5_readme_path_excluded (docTrees : GoString → docTree) (t : tree)
    (before after : List oldDocNode) (node : oldDocNode)
    (h : HasPrefix (ToLower node.Path) (bytes "readme") = true) :
    compareSHA docTrees t [node] = { files := [], saveTree := [] }
      ∧ compareSHA docTrees t (before ++ node :: after) = compareSHA docTrees t (before ++ after) := by
  have hs : skipNode node = true := by simp [skipNode, h]
  constructor
  · simp [compareSHA, compareLoop, hs]
  · simp [compareSHA, compareLoop_eq, List.filter_append, List.filter_cons, hs]

/-- Witness of C5 (amended): "README.md" and "ReadMe_zh.md" at the root. -/
theorem C5_readme_path_excluded_witness :
    compareSHA noTrees exTree [{ Sha := bytes "h0", Path := bytes "README.md", Type_ := bytes "blob" }]
        = { files := [], saveTree := [] }
      ∧ compareSHA noTrees exTree
          (exRemote ++ { Sha := bytes "h0", Path := bytes "README.md", Type_ := bytes "blob" } :: [])
        = compareSHA noTrees exTree (exRemote ++ []) :=
  C5_readme_path_excluded noTrees exTree exRemote []
    { Sha := bytes "h0", Path := bytes "README.md", Type_ := bytes "blob" } (by decide)

/-- C5 as stated fails: the file name of "en-US/README.md" starts with
"readme" in lower case, yet the entry is marked for fetching and enters the
manifest to persist (the test is on the whole path). -/
theorem C5_counterexample :
    ((Split (bytes "en-US/README.md") (byte '/')).getLast?.map
        (fun n => HasPrefix (ToLower n) (bytes "readme"))) = some true
      ∧ compareSHA noTrees exTree
          [{ Sha := bytes "h0", Path := bytes "en-US/README.md", Type_ := bytes "blob" }]
        = { files := [{ name := bytes "en-US/README",
                        rawURL := bytes "https://raw.github.com/gogits/docs/master/en-US/README.md",
                        data := [] }],
            saveTree := [{ Sha := bytes "h0", Path := bytes "en-US/README", Type_ := [] }] } := by
  decide

/-- C6 (amended): when the remote paths are pairwise distinct and no selected
path is another selected path followed by ".md", the manifest built for
persistence has pairwise distinct paths. -/
theorem C6_saveTree_unique_paths (docTrees : GoString → docTree) (t : tree)
    (tmpTree : List oldDocNode)
    (huniq : (tmpTree.map oldDocNode.Path).Nodup)
    (hcol : ∀ a ∈ tmpTree, ∀ b ∈ tmpTree, skipNode a = false → skipNode b = false →
      b.Path ≠ a.Path ++ bytes ".md") :
    ((compareSHA docTrees t tmpTree).saveTree.map oldDocNode.Path).Nodup :=
  saveTree_paths_nodup docTrees t tmpTree huniq hcol

/-- Witness of C6 (amended): the tree with "en-US/intro.md" and "en-US/images/a.png". -/
theorem C6_saveTree_unique_paths_witness :
    ((compareSHA noTrees exTree
        [{ Sha := bytes "h1", Path := bytes "en-US/intro.md", Type_ := bytes "blob" },
         { Sha := bytes "h2", Path := bytes "en-US/images/a.png", Type_ := bytes "blob" }]).saveTree.map
      oldDocNode.Path).Nodup :=
  C6_saveTree_unique_paths noTrees exTree _ (by decide) (by decide)

/-- C6 as stated fails: the remote paths "en-US/images/a.md" and
"en-US/images/a" are distinct and both selected, and both get the canonical
name "en-US/images/a" in the manifest to persist. -/
theorem C6_counterexample :
    ([{ Sha := bytes "h1", Path := bytes "en-US/images/a.md", Type_ := bytes "blob" },
      { Sha := bytes "h2", Path := bytes "en-US/images/a", Type_ := bytes "blob" }].map
        oldDocNode.Path).Nodup
      ∧ (compareSHA noTrees exTree
          [{ Sha := bytes "h1", Path := bytes "en-US/images/a.md", Type_ := bytes "blob" },
           { Sha := bytes "h2", Path := bytes "en-US/images/a", Type_ := bytes "blob" }]).saveTree.map
          oldDocNode.Path = [bytes "en-US/images/a", bytes "en-US/images/a"]
      ∧ ¬ ((compareSHA noTrees exTree
          [{ Sha := bytes "h1", Path := bytes "en-US/images/a.md", Type_ := bytes "blob" },
           { Sha := bytes "h2", Path := bytes "en-US/images/a", Type_ := bytes "blob" }]).saveTree.map
          oldDocNode.Path).Nodup := by
  decide


theorem persisted_saved (docTrees : GoString → docTree) (t : tree) (w : World)
    (F M : List oldDocNode) (hF : w.httpGetJSON t.ApiUrl = some F)
    (h : (syncTree docTrees t w).persisted = Persisted.saved M) :
    M = (compareSHA docTrees t F).saveTree := by
  unfold syncTree at h
  rw [hF] at h
  simp only at h
  cases hfetch : FetchFiles w.fetch (compareSHA docTrees t F).files with
  | none => simp [hfetch] at h
  | some files =>
    cases hc : w.createTree <;> cases he : w.encodeTree <;> simp [hfetch, hc, he] at h
    exact h.symm

theorem trimSuffix_eq_cases_strict (p q suf : GoString)
    (h : TrimSuffix p suf = TrimSuffix q suf) :
    p = q ∨ (HasSuffix q suf = false ∧ p = q ++ suf) ∨ (HasSuffix p suf = false ∧ q = p ++ suf) := by
  cases hp : HasSuffix p suf <;> cases hq : HasSuffix q suf
  · left
    rw [trimSuffix_of_not p suf hp, trimSuffix_of_not q suf hq] at h
    exact h
  · right; right
    rw [trimSuffix_of_not p suf hp] at h
    exact ⟨rfl, by rw [h, trimSuffix_append q suf hq]⟩
  · right; left
    rw [trimSuffix_of_not q suf hq] at h
    exact ⟨rfl, by rw [← h, trimSuffix_append p suf hp]⟩
  · left
    rw [← trimSuffix_append p suf hp, ← trimSuffix_append q suf hq, h]

theorem saveTree_paths_nodup_strict (docTrees : GoString → docTree) (t : tree)
    (F : List oldDocNode) (huniq : (F.map oldDocNode.Path).Nodup)
    (hcol : ∀ a ∈ F, ∀ b ∈ F, skipNode a = false → skipNode b = false →
      HasSuffix a.Path (bytes ".md") = false → b.Path ≠ a.Path ++ bytes ".md") :
    ((compareSHA docTrees t F).saveTree.map oldDocNode.Path).Nodup := by
  rw [saveTree_eq, List.map_map]
  have hF : F.Nodup := List.Nodup.of_map _ huniq
  refine List.Nodup.map_on ?_ (hF.filter _)
  intro x hx y hy hxy
  simp only [List.mem_filter, Bool.not_eq_true'] at hx hy
  simp only [Function.comp] at hxy
  rcases trimSuffix_eq_cases_strict _ _ _ hxy with h | ⟨hn, h⟩ | ⟨hn, h⟩
  · exact List.inj_on_of_nodup_map huniq hx.1 hy.1 h
  · exact absurd h (hcol y hy.1 x hx.1 hy.2 hx.2 hn)
  · exact absurd h (hcol x hx.1 y hy.1 hx.2 hy.2 hn)

theorem syncTree_files (docTrees : GoString → docTree) (t : tree) (w : World)
    (F : List oldDocNode) (hF : w.httpGetJSON t.ApiUrl = some F) :
    (syncTree docTrees t w).files = (compareSHA docTrees t F).files := by
  unfold syncTree
  rw [hF]
  simp only
  cases FetchFiles w.fetch (compareSHA docTrees t F).files with
  | none => rfl
  | some files => cases w.createTree <;> cases w.encodeTree <;> rfl

theorem syncTree_of_no_files (docTrees : GoString → docTree) (t : tree) (w : World)
    (F : List oldDocNode) (hF : w.httpGetJSON t.ApiUrl = some F)
    (hnil : (compareSHA docTrees t F).files = []) :
    (syncTree docTrees t w).written = []
      ∧ (w.createTree = true → w.encodeTree = true →
          (syncTree docTrees t w).persisted = Persisted.saved (compareSHA docTrees t F).saveTree) := by
  unfold syncTree
  rw [hF]
  simp only [hnil, FetchFiles, updateLoop]
  constructor
  · cases w.createTree <;> cases w.encodeTree <;> rfl
  · intro hc he
    simp [hc, he]

theorem second_files_nil_iff (docTrees : GoString → docTree) (app : App) (cred : GoString)
    (F M : List oldDocNode) :
    (compareSHA (reload docTrees app.Name M) (mkTree app cred) F).files = [] ↔
      ∀ n ∈ F, skipNode n = false →
        ∃ v, M.find? (fun v => decide (v.Path = TrimSuffix n.Path (bytes ".md"))) = some v
          ∧ v.Sha = n.Sha := by
  have hloop : ∀ n : oldDocNode,
      checkSHA (reload docTrees app.Name M) (mkTree app cred).AppName
          (TrimSuffix n.Path (bytes ".md")) n.Sha (mkTree app cred).Prefix
        = checkSHA.loop (TrimSuffix n.Path (bytes ".md")) n.Sha M := by
    intro n
    have hc := checkSHA_eq_loop (reload docTrees app.Name M) app cred
      (TrimSuffix n.Path (bytes ".md")) n.Sha
    simp only [reload, if_true] at hc
    exact hc
  simp only [compareSHA, compareLoop_eq, List.nil_append, List.map_eq_nil_iff,
    List.filter_eq_nil_iff, Bool.and_eq_true, Bool.not_eq_true', not_and, hloop,
    Bool.not_eq_true, checkSHA_loop_false_iff]

/-- C3 (amended): if a first cycle over the fetched tree `F` persists the
manifest `M`, then in a second cycle over the same `F` with `M` as the loaded
baseline: the manifest built is identical to `M`, for every `F` and every
baseline, and a manifest persisted is `M`; no path is marked exactly when every
selected entry carries the hash of the first entry of `M` with its canonical
name, which holds whenever the remote paths are pairwise distinct and no
selected path that does not end in ".md" is followed by ".md" in another
selected path; and when no path is marked, no file is written, the disk and
with it the rebuilt cache are unchanged, and `M` is persisted again when the
manifest file can be written. -/
theorem C3_second_cycle_idempotent (docTrees : GoString → docTree) (app : App)
    (cred : GoString) (w1 w2 : World) (F M : List oldDocNode)
    (hF1 : w1.httpGetJSON (mkTree app cred).ApiUrl = some F)
    (hF2 : w2.httpGetJSON (mkTree app cred).ApiUrl = some F)
    (h1 : (syncTree docTrees (mkTree app cred) w1).persisted = Persisted.saved M) :
    (∀ baseline : GoString → docTree, (compareSHA baseline (mkTree app cred) F).saveTree = M)
      ∧ (∀ M2, (syncTree (reload docTrees app.Name M) (mkTree app cred) w2).persisted
            = Persisted.saved M2 → M2 = M)
      ∧ ((syncTree (reload docTrees app.Name M) (mkTree app cred) w2).files = [] ↔
          ∀ n ∈ F, skipNode n = false →
            ∃ v, M.find? (fun v => decide (v.Path = TrimSuffix n.Path (bytes ".md"))) = some v
              ∧ v.Sha = n.Sha)
      ∧ ((F.map oldDocNode.Path).Nodup →
          (∀ a ∈ F, ∀ b ∈ F, skipNode a = false → skipNode b = false →
            HasSuffix a.Path (bytes ".md") = false → b.Path ≠ a.Path ++ bytes ".md") →
          (syncTree (reload docTrees app.Name M) (mkTree app cred) w2).files = [])
      ∧ ((syncTree (reload docTrees app.Name M) (mkTree app cred) w2).files = [] →
          (syncTree (reload docTrees app.Name M) (mkTree app cred) w2).written = []
          ∧ (∀ disk : GoString → Option GoString,
              applyWrites disk
                (syncTree (reload docTrees app.Name M) (mkTree app cred) w2).written = disk)
          ∧ (∀ (Join : List GoString → GoString) (disk : GoString → Option GoString)
                (markdown : GoString → GoString) (Langs : List GoString),
              initDocMap Join
                  (applyWrites disk
                    (syncTree (reload docTrees app.Name M) (mkTree app cred) w2).written)
                  markdown Langs app.Name (ConfFile.decoded M)
                = initDocMap Join disk markdown Langs app.Name (ConfFile.decoded M))
          ∧ (w2.createTree = true → w2.encodeTree = true →
              (syncTree (reload docTrees app.Name M) (mkTree app cred) w2).persisted
                = Persisted.saved M)) := by
  have hM := persisted_saved docTrees (mkTree app cred) w1 F M hF1 h1
  have hsave : ∀ baseline : GoString → docTree,
      (compareSHA baseline (mkTree app cred) F).saveTree = M := by
    intro baseline
    rw [hM, saveTree_eq, saveTree_eq]
  have hfiles := syncTree_files (reload docTrees app.Name M) (mkTree app cred) w2 F hF2
  have hiff := second_files_nil_iff docTrees app cred F M
  refine ⟨hsave, ?_, ?_, ?_, ?_⟩
  · intro M2 h2
    rw [persisted_saved _ (mkTree app cred) w2 F M2 hF2 h2]
    exact hsave _
  · rw [hfiles]
    exact hiff
  · intro huniq hcol
    rw [hfiles, hiff]
    intro n hn hs
    have hnd := saveTree_paths_nodup_strict docTrees (mkTree app cred) F huniq hcol
    rw [hsave docTrees] at hnd
    have hmem : ({ Sha := n.Sha, Path := TrimSuffix n.Path (bytes ".md"), Type_ := [] }
        : oldDocNode) ∈ M := by
      rw [← hsave docTrees, saveTree_eq]
      exact List.mem_map.mpr ⟨n, List.mem_filter.mpr ⟨hn, by simp [hs]⟩, rfl⟩
    exact ⟨_, find_path_of_nodup _ M hnd _ hmem rfl, rfl⟩
  · intro hnil
    rw [hfiles] at hnil
    have h := syncTree_of_no_files (reload docTrees app.Name M) (mkTree app cred) w2 F hF2 hnil
    rw [hsave] at h
    refine ⟨h.1, ?_, ?_, h.2⟩
    · intro disk
      rw [h.1]
      rfl
    · intro Join disk markdown Langs
      rw [h.1]
      rfl

/-- Witness of C3 (amended): a tree with a document, an image, "en-US/x.md"
beside "en-US/x.md.md", and a root readme; after a first cycle that persists
its manifest, the second cycle marks nothing. -/
theorem C3_second_cycle_idempotent_witness :
    (syncTree
        (reload noTrees exApp.Name
          [{ Sha := bytes "h1", Path := bytes "en-US/intro", Type_ := [] },
           { Sha := bytes "h2", Path := bytes "en-US/images/a.png", Type_ := [] },
           { Sha := bytes "h3", Path := bytes "en-US/x", Type_ := [] },
           { Sha := bytes "h4", Path := bytes "en-US/x.md", Type_ := [] }])
        (mkTree exApp [])
        { exWorld (fun _ => WriteOutcome.ok) with
          httpGetJSON := fun _ => some
            [{ Sha := bytes "h1", Path := bytes "en-US/intro.md", Type_ := bytes "blob" },
             { Sha := bytes "h2", Path := bytes "en-US/images/a.png", Type_ := bytes "blob" },
             { Sha := bytes "h3", Path := bytes "en-US/x.md", Type_ := bytes "blob" },
             { Sha := bytes "h4", Path := bytes "en-US/x.md.md", Type_ := bytes "blob" },
             { Sha := bytes "h0", Path := bytes "README.md", Type_ := bytes "blob" }] }).files
      = [] :=
  (C3_second_cycle_idempotent noTrees exApp []
    { exWorld (fun _ => WriteOutcome.ok) with
      httpGetJSON := fun _ => some
        [{ Sha := bytes "h1", Path := bytes "en-US/intro.md", Type_ := bytes "blob" },
         { Sha := bytes "h2", Path := bytes "en-US/images/a.png", Type_ := bytes "blob" },
         { Sha := bytes "h3", Path := bytes "en-US/x.md", Type_ := bytes "blob" },
         { Sha := bytes "h4", Path := bytes "en-US/x.md.md", Type_ := bytes "blob" },
         { Sha := bytes "h0", Path := bytes "README.md", Type_ := bytes "blob" }] }
    { exWorld (fun _ => WriteOutcome.ok) with
      httpGetJSON := fun _ => some
        [{ Sha := bytes "h1", Path := bytes "en-US/intro.md", Type_ := bytes "blob" },
         { Sha := bytes "h2", Path := bytes "en-US/images/a.png", Type_ := bytes "blob" },
         { Sha := bytes "h3", Path := bytes "en-US/x.md", Type_ := bytes "blob" },
         { Sha := bytes "h4", Path := bytes "en-US/x.md.md", Type_ := bytes "blob" },
         { Sha := bytes "h0", Path := bytes "README.md", Type_ := bytes "blob" }] }
    [{ Sha := bytes "h1", Path := bytes "en-US/intro.md", Type_ := bytes "blob" },
     { Sha := bytes "h2", Path := bytes "en-US/images/a.png", Type_ := bytes "blob" },
     { Sha := bytes "h3", Path := bytes "en-US/x.md", Type_ := bytes "blob" },
     { Sha := bytes "h4", Path := bytes "en-US/x.md.md", Type_ := bytes "blob" },
     { Sha := bytes "h0", Path := bytes "README.md", Type_ := bytes "blob" }]
    [{ Sha := bytes "h1", Path := bytes "en-US/intro", Type_ := [] },
     { Sha := bytes "h2", Path := bytes "en-US/images/a.png", Type_ := [] },
     { Sha := bytes "h3", Path := bytes "en-US/x", Type_ := [] },
     { Sha := bytes "h4", Path := bytes "en-US/x.md", Type_ := [] }]
    rfl rfl (by decide)).2.2.2.1 (by decide) (by decide)

/-- C3 as stated fails: the remote paths "en-US/images/a.md" and
"en-US/images/a" are distinct; the first cycle persists a manifest with the
name "en-US/images/a" twice, and the second cycle over the same tree, with
that manifest as baseline, marks "en-US/images/a" again and rewrites it. -/
theorem C3_counterexample :
    ([{ Sha := bytes "h1", Path := bytes "en-US/images/a.md", Type_ := bytes "blob" },
      { Sha := bytes "h2", Path := bytes "en-US/images/a", Type_ := bytes "blob" }].map
        oldDocNode.Path).Nodup
      ∧ (syncTree noTrees exTree
          { exWorld (fun _ => WriteOutcome.ok) with
            httpGetJSON := fun _ => some
              [{ Sha := bytes "h1", Path := bytes "en-US/images/a.md", Type_ := bytes "blob" },
               { Sha := bytes "h2", Path := bytes "en-US/images/a", Type_ := bytes "blob" }] }).persisted
        = Persisted.saved
            [{ Sha := bytes "h1", Path := bytes "en-US/images/a", Type_ := [] },
             { Sha := bytes "h2", Path := bytes "en-US/images/a", Type_ := [] }]
      ∧ (syncTree
          (reload noTrees exApp.Name
            [{ Sha := bytes "h1", Path := bytes "en-US/images/a", Type_ := [] },
             { Sha := bytes "h2", Path := bytes "en-US/images/a", Type_ := [] }])
          exTree
          { exWorld (fun _ => WriteOutcome.ok) with
            httpGetJSON := fun _ => some
              [{ Sha := bytes "h1", Path := bytes "en-US/images/a.md", Type_ := bytes "blob" },
               { Sha := bytes "h2", Path := bytes "en-US/images/a", Type_ := bytes "blob" }] }).files.map
          rawFile.name = [bytes "en-US/images/a"]
      ∧ (syncTree
          (reload noTrees exApp.Name
            [{ Sha := bytes "h1", Path := bytes "en-US/images/a", Type_ := [] },
             { Sha := bytes "h2", Path := bytes "en-US/images/a", Type_ := [] }])
          exTree
          { exWorld (fun _ => WriteOutcome.ok) with
            httpGetJSON := fun _ => some
              [{ Sha := bytes "h1", Path := bytes "en-US/images/a.md", Type_ := bytes "blob" },
               { Sha := bytes "h2", Path := bytes "en-US/images/a", Type_ := bytes "blob" }] }).written
        = [(bytes "docs/gogs/en-US/images/a", bytes "# Intro\n\nText")] := by
  decide

/-- C8: in a first cycle "en-US/intro" is marked for fetching and the creation
of its local file fails: nothing is written, yet the manifest is persisted with
the new hash; in the next cycle, the remote tree unchanged and that manifest
loaded, the path is not marked again and nothing is written. -/
theorem C8_failed_write_not_retried :
    (syncTree noTrees exTree (exWorld (fun _ => WriteOutcome.createFails))).files.map rawFile.name
        = [bytes "en-US/intro"]
      ∧ (syncTree noTrees exTree (exWorld (fun _ => WriteOutcome.createFails))).written = []
      ∧ (syncTree noTrees exTree (exWorld (fun _ => WriteOutcome.createFails))).persisted
        = Persisted.saved [{ Sha := bytes "h1", Path := bytes "en-US/intro", Type_ := [] }]
      ∧ (syncTree
          (reload noTrees exApp.Name [{ Sha := bytes "h1", Path := bytes "en-US/intro", Type_ := [] }])
          exTree (exWorld (fun _ => WriteOutcome.ok))).files = []
      ∧ (syncTree
          (reload noTrees exApp.Name [{ Sha := bytes "h1", Path := bytes "en-US/intro", Type_ := [] }])
          exTree (exWorld (fun _ => WriteOutcome.ok))).written = [] := by
  decide


/-! ## Lemmas on `Index`, `Count` and `Replace` for a one-byte pattern -/

theorem indexFrom_single_nil (c k : Nat) : indexFrom [c] [] k = -1 := by
  simp [indexFrom, List.isPrefixOf]

theorem indexFrom_single_cons (c x : Nat) (rest : GoString) (k : Nat) :
    indexFrom [c] (x :: rest) k = if c = x then (k : Int) else indexFrom [c] rest (k + 1) := by
  simp [indexFrom, List.isPrefixOf]

theorem indexFrom_single_split (c : Nat) (s : GoString) (k : Nat) :
    (indexFrom [c] s k = -1 ∧ c ∉ s) ∨
      ∃ before after, s = before ++ c :: after ∧ c ∉ before
        ∧ indexFrom [c] s k = ((k + before.length : Nat) : Int) := by
  induction s generalizing k with
  | nil => left; simp [indexFrom_single_nil]
  | cons x rest ih =>
    rw [indexFrom_single_cons]
    by_cases hx : c = x
    · right
      refine ⟨[], rest, by simp [hx], by simp, by simp [hx]⟩
    · rcases ih (k + 1) with ⟨h1, h2⟩ | ⟨before, after, hs, hb, hi⟩
      · left
        simp [hx, h1, h2]
      · right
        refine ⟨x :: before, after, by simp [hs], by simp [hx, hb], ?_⟩
        simp only [hx, if_false, hi, List.length_cons]
        congr 1
        omega

theorem index_single_split (c : Nat) (s : GoString) :
    (Index s [c] = -1 ∧ c ∉ s) ∨
      ∃ before after, s = before ++ c :: after ∧ c ∉ before
        ∧ Index s [c] = (before.length : Int) := by
  rcases indexFrom_single_split c s 0 with h | ⟨before, after, hs, hb, hi⟩
  · exact Or.inl h
  · exact Or.inr ⟨before, after, hs, hb, by simpa [Index] using hi⟩

theorem countLoop_single (c : Nat) (fuel : Nat) (s : GoString) (n : Nat)
    (hfuel : s.length < fuel) : countLoop [c] fuel s n = n + s.count c := by
  induction fuel generalizing s n with
  | zero => omega
  | succ fuel ih =>
    rcases index_single_split c s with ⟨h1, h2⟩ | ⟨before, after, hs, hb, hi⟩
    · simp [countLoop, h1, List.count_eq_zero.mpr h2]
    · have hne : Index s [c] ≠ -1 := by rw [hi]; omega
      have hdrop : s.drop ((Index s [c]).toNat + [c].length) = after := by
        rw [hi, hs]
        simp
      have hlen : after.length < fuel := by
        rw [hs] at hfuel
        simp at hfuel
        omega
      have hcount : s.count c = 1 + after.count c := by
        rw [hs, List.count_append, List.count_eq_zero.mpr hb]
        simp
        omega
      rw [countLoop]
      simp only [hne, if_false, hdrop]
      rw [ih after (n + 1) hlen, hcount]
      omega

theorem count_single (c : Nat) (s : GoString) : Count s c = s.count c := by
  simp [Count, countLoop_single c (s.length + 1) s 0 (Nat.lt_succ_self _)]

theorem flatMap_of_not_mem (c : Nat) (new s : GoString) (h : c ∉ s) :
    s.flatMap (fun b => if b = c then new else [b]) = s := by
  induction s with
  | nil => rfl
  | cons x rest ih =>
    have hx : x ≠ c := fun e => h (by simp [e])
    have hr : c ∉ rest := fun e => h (by simp [e])
    simp [List.flatMap_cons, hx, ih hr]

theorem replaceLoop_single (c : Nat) (new : GoString) (m : Nat) (s : GoString)
    (hm : s.count c = m) :
    replaceLoop [c] new m s = s.flatMap (fun b => if b = c then new else [b]) := by
  induction m generalizing s with
  | zero =>
    rw [replaceLoop, flatMap_of_not_mem c new s (List.count_eq_zero.mp hm)]
  | succ m ih =>
    rcases index_single_split c s with ⟨_, h2⟩ | ⟨before, after, hs, hb, hi⟩
    · rw [List.count_eq_zero.mpr h2] at hm
      omega
    · have hcount : after.count c = m := by
        rw [hs, List.count_append, List.count_eq_zero.mpr hb] at hm
        simp at hm
        omega
      have htake : s.take (Index s [c]).toNat = before := by
        rw [hi, hs]
        simp
      have hdrop : s.drop ((Index s [c]).toNat + [c].length) = after := by
        rw [hi, hs]
        simp
      rw [replaceLoop]
      simp only [htake, hdrop]
      rw [ih after hcount]
      conv_rhs => rw [hs, List.flatMap_append, List.flatMap_cons,
        flatMap_of_not_mem c new before hb]
      simp

theorem replace_single (s : GoString) (c : Nat) (new : GoString) :
    Replace s c new = s.flatMap (fun b => if b = c then new else [b]) := by
  unfold Replace
  simp only [count_single]
  by_cases h : s.count c = 0
  · simp [h, flatMap_of_not_mem c new s (List.count_eq_zero.mp h)]
  · simp [h, replaceLoop_single c new (s.count c) s rfl]


/-- C9: the bytes `CustomRender.BlockCode` appends to the output buffer are the
underlying renderer's bytes with every tab (byte 9) replaced by exactly four
spaces (bytes 32): they contain no tab, every tab adds three bytes, and what
the buffer held before is unchanged. -/
theorem C9_blockcode_tabs_to_spaces (Renderer : GoString → GoString → GoString)
    (out text lang : GoString) :
    CustomRender.BlockCode Renderer out text lang
        = out ++ (Renderer text lang).flatMap (fun b => if b = 9 then [32, 32, 32, 32] else [b])
      ∧ (CustomRender.BlockCode Renderer out text lang).take out.length = out
      ∧ 9 ∉ (CustomRender.BlockCode Renderer out text lang).drop out.length
      ∧ (CustomRender.BlockCode Renderer out text lang).length
        = out.length + (Renderer text lang).length + 3 * (Renderer text lang).count 9 := by
  have htab : tab = 9 := by decide
  have hsp : spaces = [32, 32, 32, 32] := by decide
  have hrep : CustomRender.BlockCode Renderer out text lang
      = out ++ (Renderer text lang).flatMap (fun b => if b = 9 then [32, 32, 32, 32] else [b]) := by
    unfold CustomRender.BlockCode
    simp only [replace_single, htab, hsp]
  have hlen : ∀ s : GoString,
      (s.flatMap (fun b => if b = 9 then [32, 32, 32, 32] else [b])).length
        = s.length + 3 * s.count 9 := by
    intro s
    induction s with
    | nil => rfl
    | cons x rest ih =>
      by_cases hx : x = 9
      · simp only [List.flatMap_cons, hx, if_true, List.length_append, ih,
          List.length_cons, List.length_nil, List.count_cons_self]
        omega
      · have hx' : (x == 9) = false := by simpa using hx
        simp only [List.flatMap_cons, hx, if_false, List.length_append, ih,
          List.length_cons, List.length_nil, List.count_cons, hx']
        simp only [Bool.false_eq_true, if_false]
        omega
  refine ⟨hrep, ?_, ?_, ?_⟩
  · rw [hrep]
    simp
  · rw [hrep]
    simp only [List.drop_left, List.mem_flatMap, not_exists, not_and]
    intro b _ hb
    by_cases h9 : b = 9
    · simp [h9] at hb
    · simp only [h9, if_false, List.mem_singleton] at hb
      exact h9 hb.symm
  · rw [hrep, List.length_append, hlen]
    omega

theorem updateLoop_eq (io : GoString → WriteOutcome) (pre : GoString) (files : List rawFile) :
    updateLoop io pre files = files.filterMap (fun f =>
      match io (targetPath pre f.name) with
      | WriteOutcome.createFails => none
      | WriteOutcome.writeFails n => some (targetPath pre f.name, f.data.take n)
      | WriteOutcome.ok => some (targetPath pre f.name, f.data)) := by
  induction files with
  | nil => rfl
  | cons f rest ih =>
    rw [updateLoop, List.filterMap_cons]
    cases hio : io (targetPath pre f.name) <;> simp [ih]

theorem FetchFiles_ok (fetch : GoString → Option GoString) (content : GoString → GoString)
    (h : ∀ url, fetch url = some (content url)) (files : List rawFile) :
    FetchFiles fetch files = some (files.map (fun f => { f with data := content f.rawURL })) := by
  induction files with
  | nil => rfl
  | cons f rest ih => simp [FetchFiles, h, ih]

theorem targetPath_original (pre : GoString) (node : oldDocNode) (hsel : skipNode node = false) :
    targetPath pre (TrimSuffix node.Path (bytes ".md")) = pre ++ node.Path ↔
      ¬ (HasSuffix node.Path (bytes ".md") = true
          ∧ (Contains (TrimSuffix node.Path (bytes ".md")) (bytes "images") = true
            ∨ HasSuffix (TrimSuffix node.Path (bytes ".md")) (bytes ".json") = true)) := by
  cases hmd : HasSuffix node.Path (bytes ".md") with
  | false =>
    have hname := trimSuffix_of_not _ _ hmd
    have hsel' : Contains node.Path (bytes "images") = true
        ∨ HasSuffix node.Path (bytes ".json") = true := by
      simp only [skipNode, hmd, Bool.or_eq_false_iff, Bool.and_eq_false_iff,
        Bool.not_eq_false', Bool.not_true, Bool.false_eq_true, false_or] at hsel
      tauto
    rw [hname]
    simp only [Bool.false_eq_true, false_and, not_false_eq_true, iff_true]
    unfold targetPath
    rcases hsel' with h | h <;> simp [h]
  | true =>
    have hname := trimSuffix_append _ _ hmd
    simp only [true_and]
    by_cases hx : Contains (TrimSuffix node.Path (bytes ".md")) (bytes "images") = true
        ∨ HasSuffix (TrimSuffix node.Path (bytes ".md")) (bytes ".json") = true
    · have hsuf : (Contains (TrimSuffix node.Path (bytes ".md")) (bytes "images")
          || HasSuffix (TrimSuffix node.Path (bytes ".md")) (bytes ".json")) = true := by
        simpa using hx
      simp only [hx, not_true_eq_false, iff_false]
      unfold targetPath
      simp only [hsuf, if_true, List.append_nil]
      intro heq
      have hlen := congrArg List.length (List.append_cancel_left heq)
      have hlen2 := congrArg List.length hname
      rw [List.length_append] at hlen2
      have h3 : (bytes ".md").length = 3 := by decide
      omega
    · have hsuf : (Contains (TrimSuffix node.Path (bytes ".md")) (bytes "images")
          || HasSuffix (TrimSuffix node.Path (bytes ".md")) (bytes ".json")) = false := by
        simpa using hx
      simp only [hx, not_false_eq_true, iff_true]
      unfold targetPath
      simp only [hsuf, Bool.false_eq_true, if_false]
      rw [List.append_assoc, hname]

/-- C7 (amended): in a cycle whose downloads succeed, the update loop handles
exactly the entries marked for fetching, in order: for each of them it creates
the local file at the prefix followed by the canonical name and a suffix (empty
when the canonical name contains "images" or ends in ".json", ".md" otherwise)
and writes the bytes downloaded from the entry's raw URL (cut where a write
fails; nothing when the creation fails).  For a selected entry that path is
the prefix followed by the original remote path, except when the remote path
ends in ".md" and its canonical name contains "images" or ends in ".json". -/
theorem C7_target_path (docTrees : GoString → docTree) (app : App) (cred : GoString)
    (w : World) (F : List oldDocNode) (content : GoString → GoString)
    (hF : w.httpGetJSON (mkTree app cred).ApiUrl = some F)
    (hfetch : ∀ url, w.fetch url = some (content url)) :
    (syncTree docTrees (mkTree app cred) w).written
        = (F.filter (fun n => !skipNode n &&
              checkSHA docTrees app.Name (TrimSuffix n.Path (bytes ".md")) n.Sha
                (mkTree app cred).Prefix)).filterMap
            (fun n =>
              match w.io (targetPath (mkTree app cred).Prefix (TrimSuffix n.Path (bytes ".md"))) with
              | WriteOutcome.createFails => none
              | WriteOutcome.writeFails k =>
                some (targetPath (mkTree app cred).Prefix (TrimSuffix n.Path (bytes ".md")),
                  (content ((mkTree app cred).RawUrl ++ n.Path)).take k)
              | WriteOutcome.ok =>
                some (targetPath (mkTree app cred).Prefix (TrimSuffix n.Path (bytes ".md")),
                  content ((mkTree app cred).RawUrl ++ n.Path)))
      ∧ (∀ pre name : GoString, targetPath pre name = pre ++ name ++
          (if Contains name (bytes "images") = true ∨ HasSuffix name (bytes ".json") = true
            then [] else [46, 109, 100]))
      ∧ (∀ (pre : GoString) (node : oldDocNode), skipNode node = false →
          (targetPath pre (TrimSuffix node.Path (bytes ".md")) = pre ++ node.Path ↔
            ¬ (HasSuffix node.Path (bytes ".md") = true
                ∧ (Contains (TrimSuffix node.Path (bytes ".md")) (bytes "images") = true
                  ∨ HasSuffix (TrimSuffix node.Path (bytes ".md")) (bytes ".json") = true)))) := by
  refine ⟨?_, ?_, fun pre node hsel => targetPath_original pre node hsel⟩
  · have hfiles := FetchFiles_ok w.fetch content hfetch
      (compareSHA docTrees (mkTree app cred) F).files
    have hw : (syncTree docTrees (mkTree app cred) w).written
        = updateLoop w.io (mkTree app cred).Prefix
            ((compareSHA docTrees (mkTree app cred) F).files.map
              (fun f => { f with data := content f.rawURL })) := by
      unfold syncTree
      rw [hF]
      simp only [hfiles]
      cases w.createTree <;> cases w.encodeTree <;> rfl
    rw [hw, updateLoop_eq]
    simp only [compareSHA, compareLoop_eq, List.nil_append, List.filterMap_map]
    rfl
  · intro pre name
    unfold targetPath
    by_cases h1 : Contains name (bytes "images") = true
    · simp [h1]
    · by_cases h2 : HasSuffix name (bytes ".json") = true
      · simp [h2]
      · have h1' : Contains name (bytes "images") = false := by simpa using h1
        have h2' : HasSuffix name (bytes ".json") = false := by simpa using h2
        simp [h1', h2']
        decide

/-- Witness of C7 (amended): of the remote files "en-US/intro.md",
"en-US/images/logo.png" and "en-US/data.json", all new, the second cannot be
created; the first is written to "docs/gogs/en-US/intro.md" and the third to
"docs/gogs/en-US/data.json", each with the downloaded bytes. -/
theorem C7_target_path_witness :
    (syncTree noTrees (mkTree exApp [])
        { exWorld (fun p => if p = bytes "docs/gogs/en-US/images/logo.png"
            then WriteOutcome.createFails else WriteOutcome.ok) with
          httpGetJSON := fun _ => some
            [{ Sha := bytes "h1", Path := bytes "en-US/intro.md", Type_ := bytes "blob" },
             { Sha := bytes "h2", Path := bytes "en-US/images/logo.png", Type_ := bytes "blob" },
             { Sha := bytes "h3", Path := bytes "en-US/data.json", Type_ := bytes "blob" }],
          fetch := fun url => some (bytes "from " ++ url) }).written
      = [(bytes "docs/gogs/en-US/intro.md",
            bytes "from https://raw.github.com/gogits/docs/master/en-US/intro.md"),
         (bytes "docs/gogs/en-US/data.json",
            bytes "from https://raw.github.com/gogits/docs/master/en-US/data.json")] :=
  ((C7_target_path noTrees exApp []
      { exWorld (fun p => if p = bytes "docs/gogs/en-US/images/logo.png"
          then WriteOutcome.createFails else WriteOutcome.ok) with
        httpGetJSON := fun _ => some
          [{ Sha := bytes "h1", Path := bytes "en-US/intro.md", Type_ := bytes "blob" },
           { Sha := bytes "h2", Path := bytes "en-US/images/logo.png", Type_ := bytes "blob" },
           { Sha := bytes "h3", Path := bytes "en-US/data.json", Type_ := bytes "blob" }],
        fetch := fun url => some (bytes "from " ++ url) }
      [{ Sha := bytes "h1", Path := bytes "en-US/intro.md", Type_ := bytes "blob" },
       { Sha := bytes "h2", Path := bytes "en-US/images/logo.png", Type_ := bytes "blob" },
       { Sha := bytes "h3", Path := bytes "en-US/data.json", Type_ := bytes "blob" }]
      (fun url => bytes "from " ++ url) rfl (fun _ => rfl)).1).trans (by decide)

/-- C7 as stated fails: the selected markup file "en-US/images/notes.md" is
written to "docs/gogs/en-US/images/notes", the extension stripped and not
appended again. -/
theorem C7_counterexample :
    skipNode { Sha := bytes "h1", Path := bytes "en-US/images/notes.md", Type_ := bytes "blob" }
        = false
      ∧ (syncTree noTrees exTree
          { exWorld (fun _ => WriteOutcome.ok) with
            httpGetJSON := fun _ => some
              [{ Sha := bytes "h1", Path := bytes "en-US/images/notes.md",
                 Type_ := bytes "blob" }] }).written
        = [(bytes "docs/gogs/en-US/images/notes", bytes "# Intro\n\nText")]
      ∧ targetPath (bytes "docs/gogs/") (TrimSuffix (bytes "en-US/images/notes.md") (bytes ".md"))
        ≠ bytes "docs/gogs/" ++ bytes "en-US/images/notes.md" := by
  decide


/-! ## Lemmas on the trace of `initDocMap` -/

theorem nodes_trace (Join : List GoString → GoString) (fs : GoString → Option GoString)
    (markdown : GoString → GoString) (name : GoString) (isConfExist : Bool) (l : GoString)
    (Tree : List oldDocNode) (st : InitState) :
    (initDocMap.nodes Join fs markdown name isConfExist l Tree st).trace
      = st.trace ++ Tree.map (fun v => Event.getFile
          (Join [bytes "docs", name, if isConfExist then v.Path else l ++ bytes "/" ++ v.Path])) := by
  induction Tree generalizing st with
  | nil => simp [initDocMap.nodes]
  | cons v rest ih => simp [initDocMap.nodes, ih]

theorem langs_trace (Join : List GoString → GoString) (fs : GoString → Option GoString)
    (markdown : GoString → GoString) (name : GoString) (isConfExist : Bool)
    (Tree : List oldDocNode) (Langs : List GoString) (st : InitState) :
    (initDocMap.langs Join fs markdown name isConfExist Tree Langs st).trace
      = st.trace ++ rebuildEvents Join name isConfExist Tree Langs := by
  induction Langs generalizing st with
  | nil => simp [initDocMap.langs, rebuildEvents]
  | cons l rest ih =>
    simp only [initDocMap.langs, ih, nodes_trace, rebuildEvents, List.flatMap_cons,
      List.append_assoc, List.singleton_append]

theorem build_trace (Join : List GoString → GoString) (fs : GoString → Option GoString)
    (markdown : GoString → GoString) (Langs : List GoString) (name : GoString)
    (isConfExist : Bool) (Tree : List oldDocNode) :
    (initDocMap.build Join fs markdown Langs name isConfExist Tree).trace
      = Event.lock :: rebuildEvents Join name isConfExist Tree Langs
          ++ [Event.assign name, Event.unlock] := by
  simp [initDocMap.build, langs_trace]

theorem parses_nodes (f : oldDocNode → GoString) (Tree : List oldDocNode) (tail : List Event) :
    parsesLocked true (Tree.map (fun v => Event.getFile (f v)) ++ tail)
        = Tree.map f ++ parsesLocked true tail
      ∧ parsesUnlocked true (Tree.map (fun v => Event.getFile (f v)) ++ tail)
        = parsesUnlocked true tail := by
  induction Tree with
  | nil => simp
  | cons v rest ih => simp [parsesLocked, parsesUnlocked, ih.1, ih.2]

theorem parses_rebuild (Join : List GoString → GoString) (name : GoString) (isConfExist : Bool)
    (Tree : List oldDocNode) (Langs : List GoString) (tail : List Event) :
    parsesLocked true (rebuildEvents Join name isConfExist Tree Langs ++ tail)
        = Langs.flatMap (fun l => Tree.map (fun v =>
            Join [bytes "docs", name, if isConfExist then v.Path else l ++ bytes "/" ++ v.Path]))
          ++ parsesLocked true tail
      ∧ parsesUnlocked true (rebuildEvents Join name isConfExist Tree Langs ++ tail)
        = parsesUnlocked true tail := by
  induction Langs with
  | nil => simp [rebuildEvents]
  | cons l rest ih =>
    have hcons : rebuildEvents Join name isConfExist Tree (l :: rest) ++ tail
        = Event.mkdirAll (Join [bytes "docs", name, l]) ::
            (Tree.map (fun v => Event.getFile
              (Join [bytes "docs", name, if isConfExist then v.Path else l ++ bytes "/" ++ v.Path]))
              ++ (rebuildEvents Join name isConfExist Tree rest ++ tail)) := by
      simp [rebuildEvents, List.flatMap_cons]
    rw [hcons]
    simp only [parsesLocked, parsesUnlocked]
    rw [(parses_nodes _ Tree _).1, (parses_nodes _ Tree _).2, ih.2, ih.1]
    refine ⟨?_, rfl⟩
    simp [List.flatMap_cons]

theorem rebuildEvents_mem (Join : List GoString → GoString) (name : GoString)
    (isConfExist : Bool) (Tree : List oldDocNode) (Langs : List GoString) (e : Event)
    (h : e ∈ rebuildEvents Join name isConfExist Tree Langs) :
    (∃ d, e = Event.mkdirAll d) ∨ ∃ p, e = Event.getFile p := by
  simp only [rebuildEvents, List.mem_flatMap, List.mem_cons, List.mem_map] at h
  obtain ⟨l, _, h | ⟨v, _, h⟩⟩ := h
  · exact Or.inl ⟨_, h⟩
  · exact Or.inr ⟨_, h.symm⟩

/-- C10 (amended): a run of `initDocMap` that returns on an open or decode
error takes no lock and calls no `getFile`.  Every other run takes the
exclusive lock first, then for every language creates the directory and calls
`getFile` for every entry of the tree (the single root entry when no manifest
exists), then assigns the mapping and unlocks last: no `getFile` call happens
outside the lock, and all of them, one per language and tree entry, happen
while it is held. -/
theorem C10_parsing_under_lock (Join : List GoString → GoString)
    (fs : GoString → Option GoString) (markdown : GoString → GoString)
    (Langs : List GoString) (name : GoString) (conf : ConfFile) :
    (initDocMap Join fs markdown Langs name conf).trace
        = (match conf with
            | ConfFile.openFails => []
            | ConfFile.decodeFails _ => []
            | ConfFile.decoded Tree =>
              Event.lock :: rebuildEvents Join name true Tree Langs
                ++ [Event.assign name, Event.unlock]
            | ConfFile.missing =>
              Event.lock ::
                rebuildEvents Join name false [{ Path := [], Sha := [], Type_ := [] }] Langs
                ++ [Event.assign name, Event.unlock])
      ∧ (∀ (isConfExist : Bool) (Tree : List oldDocNode),
          rebuildEvents Join name isConfExist Tree Langs
            = Langs.flatMap (fun l => Event.mkdirAll (Join [bytes "docs", name, l]) ::
                Tree.map (fun v => Event.getFile (Join [bytes "docs", name,
                  if isConfExist then v.Path else l ++ bytes "/" ++ v.Path]))))
      ∧ parsesUnlocked false (initDocMap Join fs markdown Langs name conf).trace = []
      ∧ parsesLocked false (initDocMap Join fs markdown Langs name conf).trace
        = (match conf with
            | ConfFile.openFails => []
            | ConfFile.decodeFails _ => []
            | ConfFile.decoded Tree =>
              Langs.flatMap (fun _ => Tree.map (fun v => Join [bytes "docs", name, v.Path]))
            | ConfFile.missing =>
              Langs.map (fun l => Join [bytes "docs", name, l ++ bytes "/"]))
      ∧ ((initDocMap Join fs markdown Langs name conf).docMap = none ↔
          (conf = ConfFile.openFails ∨ ∃ part, conf = ConfFile.decodeFails part)) := by
  refine ⟨?_, fun _ _ => rfl, ?_, ?_, ?_⟩
  · cases conf <;> simp [initDocMap, build_trace]
  · cases conf with
    | openFails => simp [initDocMap, parsesUnlocked]
    | decodeFails part => simp [initDocMap, parsesUnlocked]
    | decoded Tree =>
      simp only [initDocMap, build_trace]
      rw [List.cons_append, parsesUnlocked, (parses_rebuild _ _ _ _ _ _).2]
      simp [parsesUnlocked]
    | missing =>
      simp only [initDocMap, build_trace]
      rw [List.cons_append, parsesUnlocked, (parses_rebuild _ _ _ _ _ _).2]
      simp [parsesUnlocked]
  · cases conf with
    | openFails => simp [initDocMap, parsesLocked]
    | decodeFails part => simp [initDocMap, parsesLocked]
    | decoded Tree =>
      simp only [initDocMap, build_trace]
      rw [List.cons_append, parsesLocked, (parses_rebuild _ _ _ _ _ _).1]
      simp [parsesLocked]
    | missing =>
      simp only [initDocMap, build_trace]
      rw [List.cons_append, parsesLocked, (parses_rebuild _ _ _ _ _ _).1]
      simp only [parsesLocked, List.append_nil, List.map_cons, List.map_nil, Bool.false_eq_true,
        if_false, List.append_nil]
      induction Langs with
      | nil => rfl
      | cons l rest ih => simp [List.flatMap_cons, ih]
  · cases conf <;> simp [initDocMap, initDocMap.build]

/-- C10 as stated fails: in the rebuild of `gogs` for the language "en-US"
with the manifest entry "en-US/intro", `getFile` is called on
"docs/gogs/en-US/intro" after the lock is taken and before it is released. -/
theorem C10_counterexample :
    (initDocMap path.Join exFs id [bytes "en-US"] (bytes "gogs")
        (ConfFile.decoded [{ Sha := bytes "h1", Path := bytes "en-US/intro", Type_ := [] }])).trace
        = [Event.lock, Event.mkdirAll (bytes "docs/gogs/en-US"),
           Event.getFile (bytes "docs/gogs/en-US/intro"),
           Event.assign (bytes "gogs"), Event.unlock]
      ∧ parsesLocked false
          (initDocMap path.Join exFs id [bytes "en-US"] (bytes "gogs")
            (ConfFile.decoded [{ Sha := bytes "h1", Path := bytes "en-US/intro", Type_ := [] }])).trace
        = [bytes "docs/gogs/en-US/intro"]
      ∧ ¬ (parsesLocked false
          (initDocMap path.Join exFs id [bytes "en-US"] (bytes "gogs")
            (ConfFile.decoded [{ Sha := bytes "h1", Path := bytes "en-US/intro", Type_ := [] }])).trace
        = []) := by
  decide

end models
